import Mathlib

/-!
Verification of the clipboard-sync wire codec and change-guard logic
(`src/index.js`, duplicated in `src/unnamed/part_000`).

The JavaScript code keeps its parse buffer as a JS string: every incoming
byte chunk is decoded with `data.toString('utf8')` (lossy UTF-8 decoding,
invalid sequences become U+FFFD) and appended.  All positions used by the
code (`indexOf`, `slice`, `length`) count UTF-16 code units, while
`Buffer.byteLength(·, 'utf8')` counts UTF-8 bytes.  We model a JS string
as a `List Char` of Unicode scalar values and index it by UTF-16 code
units.  A slice boundary that would fall between the two surrogate halves
of one astral character cannot be represented with scalar values; our
`utf16Take` excludes such a straddling character and `utf16Drop` keeps it
(so `take ++ drop` is always the whole list).  No theorem below exercises
that corner.
-/

namespace ClipboardSync

/-- UTF-16 code units used by one scalar value (JS string element count). -/
def utf16Size (c : Char) : Nat :=
  if c.toNat < 65536 then 1 else 2

/-- JS `string.length`: total UTF-16 code units. -/
def utf16Len (l : List Char) : Nat :=
  (l.map utf16Size).sum

/-- JS `string.slice(0, n)` with `n` in UTF-16 code units. -/
def utf16Take (n : Nat) : List Char → List Char
  | [] => []
  | c :: rest =>
    if utf16Size c ≤ n then c :: utf16Take (n - utf16Size c) rest else []

/-- JS `string.slice(n)` with `n` in UTF-16 code units. -/
def utf16Drop (n : Nat) : List Char → List Char
  | [] => []
  | c :: rest =>
    if utf16Size c ≤ n then utf16Drop (n - utf16Size c) rest else c :: rest

/-- Whether `pat` occurs at the start of `l`. -/
def listStartsWith : List Char → List Char → Bool
  | [], _ => true
  | _ :: _, [] => false
  | p :: ps, c :: cs => p == c && listStartsWith ps cs

/-- JS `string.indexOf(pat)`: UTF-16 position of the first occurrence. -/
def jsIndexOf (pat : List Char) : List Char → Option Nat
  | [] => if listStartsWith pat [] then some 0 else none
  | c :: rest =>
    if listStartsWith pat (c :: rest) then some 0
    else (jsIndexOf pat rest).map (· + utf16Size c)

/-! ### UTF-8 encoding and Node's lossy decoding -/

/-- Standard UTF-8 encoding of one scalar value. -/
def encodeChar (c : Char) : List Nat :=
  let v := c.toNat
  if v < 128 then [v]
  else if v < 2048 then [192 + v / 64, 128 + v % 64]
  else if v < 65536 then [224 + v / 4096, 128 + (v / 64) % 64, 128 + v % 64]
  else [240 + v / 262144, 128 + (v / 4096) % 64, 128 + (v / 64) % 64, 128 + v % 64]

/-- UTF-8 encoding of a character list (`Buffer.from(s, 'utf8')`). -/
def utf8Encode : List Char → List Nat
  | [] => []
  | c :: rest => encodeChar c ++ utf8Encode rest

/-- `Buffer.byteLength(s, 'utf8')`: UTF-8 byte count of a string. -/
def byteLen (l : List Char) : Nat :=
  (utf8Encode l).length

/-- U+FFFD REPLACEMENT CHARACTER, emitted by Node for invalid UTF-8. -/
def replChar : Char := Char.ofNat 65533

/-- Second byte range of a 3-byte sequence, depending on the lead byte
(WHATWG: lead `0xE0` needs `0xA0..0xBF`, lead `0xED` needs `0x80..0x9F`). -/
def cont3Ok (b0 b1 : Nat) : Bool :=
  if b0 = 224 then 160 ≤ b1 && b1 ≤ 191
  else if b0 = 237 then 128 ≤ b1 && b1 ≤ 159
  else 128 ≤ b1 && b1 ≤ 191

/-- Second byte range of a 4-byte sequence, depending on the lead byte
(WHATWG: lead `0xF0` needs `0x90..0xBF`, lead `0xF4` needs `0x80..0x8F`). -/
def cont4Ok (b0 b1 : Nat) : Bool :=
  if b0 = 240 then 144 ≤ b1 && b1 ≤ 191
  else if b0 = 244 then 128 ≤ b1 && b1 ≤ 143
  else 128 ≤ b1 && b1 ≤ 191

/-- Node's `buf.toString('utf8')`: WHATWG UTF-8 decoding where each
maximal invalid subpart becomes one U+FFFD. -/
def utf8DecodeLossy : List Nat → List Char
  | [] => []
  | b0 :: rest =>
    if b0 < 128 then Char.ofNat b0 :: utf8DecodeLossy rest
    else if 194 ≤ b0 ∧ b0 ≤ 223 then
      match rest with
      | [] => [replChar]
      | b1 :: rest2 =>
        if 128 ≤ b1 ∧ b1 ≤ 191 then
          Char.ofNat ((b0 - 192) * 64 + (b1 - 128)) :: utf8DecodeLossy rest2
        else replChar :: utf8DecodeLossy (b1 :: rest2)
    else if 224 ≤ b0 ∧ b0 ≤ 239 then
      match rest with
      | [] => [replChar]
      | b1 :: rest2 =>
        if cont3Ok b0 b1 then
          match rest2 with
          | [] => [replChar]
          | b2 :: rest3 =>
            if 128 ≤ b2 ∧ b2 ≤ 191 then
              Char.ofNat ((b0 - 224) * 4096 + (b1 - 128) * 64 + (b2 - 128)) ::
                utf8DecodeLossy rest3
            else replChar :: utf8DecodeLossy (b2 :: rest3)
        else replChar :: utf8DecodeLossy (b1 :: rest2)
    else if 240 ≤ b0 ∧ b0 ≤ 244 then
      match rest with
      | [] => [replChar]
      | b1 :: rest2 =>
        if cont4Ok b0 b1 then
          match rest2 with
          | [] => [replChar]
          | b2 :: rest3 =>
            if 128 ≤ b2 ∧ b2 ≤ 191 then
              match rest3 with
              | [] => [replChar]
              | b3 :: rest4 =>
                if 128 ≤ b3 ∧ b3 ≤ 191 then
                  Char.ofNat ((b0 - 240) * 262144 + (b1 - 128) * 4096 +
                      (b2 - 128) * 64 + (b3 - 128)) :: utf8DecodeLossy rest4
                else replChar :: utf8DecodeLossy (b3 :: rest4)
            else replChar :: utf8DecodeLossy (b2 :: rest3)
        else replChar :: utf8DecodeLossy (b1 :: rest2)
    else replChar :: utf8DecodeLossy rest

/-! ### Decimal rendering (JS number-to-string in a template literal) -/

/-- One decimal digit as a character (`n < 10`). -/
def decDigit (n : Nat) : Char := Nat.digitChar n

/-- Fuel-indexed decimal rendering; `fuel > n` always suffices. -/
def natToDigitsAux : Nat → Nat → List Char
  | 0, _ => []
  | fuel + 1, n =>
    if n < 10 then [decDigit n]
    else natToDigitsAux fuel (n / 10) ++ [decDigit (n % 10)]

/-- Decimal digit string of a natural number, as JS renders an integer. -/
def natToDigits (n : Nat) : List Char :=
  natToDigitsAux (n + 1) n

/-- ASCII decimal digit test (JS regex `\d`). -/
def isDigitC (c : Char) : Bool :=
  48 ≤ c.toNat && c.toNat ≤ 57

/-- Numeric value of a decimal digit string (JS `parseInt` on digits). -/
def digitsToNat (l : List Char) : Nat :=
  l.foldl (fun a c => a * 10 + (c.toNat - 48)) 0

/-! ### The wire codec (`src/index.js`, socket data handler and
`checkAndSendClipboardData`) -/

/-- The literal `"Content-Length: "` searched by the regex
`/Content-Length: (\d+)/i` (as an explicit character list; see
`patCL_spelling`). -/
def patCL : List Char :=
  ['C', 'o', 'n', 't', 'e', 'n', 't', '-', 'L', 'e', 'n', 'g', 't', 'h', ':', ' ']

/-- The preferred header delimiter `"\r\n\r\n"`. -/
def crlf2 : List Char := ['\r', '\n', '\r', '\n']

/-- The fallback header delimiter `"\n\n"`. -/
def lflf : List Char := ['\n', '\n']

/-- ASCII lower-casing, the case folding relevant to the `/i` flag on the
all-ASCII pattern `Content-Length: `. -/
def asciiLower (c : Char) : Char :=
  if 65 ≤ c.toNat ∧ c.toNat ≤ 90 then Char.ofNat (c.toNat + 32) else c

/-- Case-insensitive prefix test used to match the literal part of the
regex at one candidate position. -/
def ciPrefixAt : List Char → List Char → Bool
  | [], _ => true
  | _ :: _, [] => false
  | p :: ps, c :: cs => asciiLower p == asciiLower c && ciPrefixAt ps cs

/-- Attempt the regex `Content-Length: (\d+)` (case-insensitive) at the
start of `l`: the literal, then at least one digit; the capture is the
maximal digit run, converted by `parseInt`. -/
def matchCLAt (l : List Char) : Option Nat :=
  if ciPrefixAt patCL l then
    let ds := (l.drop patCL.length).takeWhile isDigitC
    if ds = [] then none else some (digitsToNat ds)
  else none

/-- `header.match(/Content-Length: (\d+)/i)`: leftmost position where the
pattern matches, returning the parsed length. -/
def matchContentLength : List Char → Option Nat
  | [] => none
  | c :: rest =>
    match matchCLAt (c :: rest) with
    | some n => some n
    | none => matchContentLength rest

/-- Lines 85-90: `indexOf('\r\n\r\n')` first, falling back to
`indexOf('\n\n')`; result is the delimiter position and length. -/
def findDelimiter (buffer : List Char) : Option (Nat × Nat) :=
  match jsIndexOf crlf2 buffer with
  | some i => some (i, 4)
  | none =>
    match jsIndexOf lflf buffer with
    | some i => some (i, 2)
    | none => none

/-- Outcome of one iteration of the extraction loop body. -/
inductive StepResult where
  | noDelim
  | malformed
  | needMore
  | message (body rest : List Char)
  deriving DecidableEq

/-- One iteration of the `while` body (lines 84-127): find the delimiter,
parse `Content-Length`, check byte completeness, slice body and rest.
All slicing counts UTF-16 code units, exactly as `String.prototype.slice`
does, while completeness compares `Buffer.byteLength` with the declared
length. -/
def stepExtract (buffer : List Char) : StepResult :=
  match findDelimiter buffer with
  | none => .noDelim
  | some (headerEnd, delimiterLength) =>
    match matchContentLength (utf16Take headerEnd buffer) with
    | none => .malformed
    | some contentLength =>
      if byteLen (utf16Drop (headerEnd + delimiterLength) buffer) < contentLength then
        .needMore
      else
        .message
          (utf16Take contentLength (utf16Drop (headerEnd + delimiterLength) buffer))
          (utf16Drop contentLength (utf16Drop (headerEnd + delimiterLength) buffer))

/-- The `while (buffer.length > 0)` loop, with explicit fuel so that the
definition computes; `processLoop` below supplies sufficient fuel, and
the termination theorem proves that this fuel always suffices.  Returns
the list of extracted bodies (in order) and the final buffer.  A
malformed header clears the buffer and stops the event (`buffer = '';
return`); no delimiter or missing bytes stop the event with the buffer
untouched (`return`). -/
def processLoopFuel : Nat → List Char → Option (List (List Char) × List Char)
  | 0, _ => none
  | fuel + 1, buffer =>
    if buffer = [] then some ([], [])
    else
      match stepExtract buffer with
      | .noDelim => some ([], buffer)
      | .malformed => some ([], [])
      | .needMore => some ([], buffer)
      | .message body rest =>
        match processLoopFuel fuel rest with
        | some (ms, b) => some (body :: ms, b)
        | none => none

/-- The extraction loop on a buffer. -/
def processLoop (buffer : List Char) : List (List Char) × List Char :=
  (processLoopFuel (utf16Len buffer + 1) buffer).getD ([], [])

/-- The `socket.on('data', ...)` handler: append the lossily decoded
chunk to the string buffer, then run the extraction loop. -/
def processData (buffer : List Char) (chunk : List Nat) :
    List (List Char) × List Char :=
  processLoop (buffer ++ utf8DecodeLossy chunk)

/-- Feed several byte chunks one at a time, collecting all extracted
bodies and the final buffer. -/
def feedChunks : List Char → List (List Nat) → List (List Char) × List Char
  | buffer, [] => ([], buffer)
  | buffer, chunk :: rest =>
    let r := processData buffer chunk
    let r2 := feedChunks r.2 rest
    (r.1 ++ r2.1, r2.2)

/-- The encoder (lines 141-145): the frame as a JS string,
`"Content-Length: " + contentLength + "\r\n\r\n" + data` with the length
in UTF-8 bytes. -/
def frameCRLF (s : List Char) : List Char :=
  patCL ++ natToDigits (byteLen s) ++ crlf2 ++ s

/-- The same frame with the fallback `"\n\n"` delimiter (accepted by the
decoder, never produced by this encoder). -/
def frameLF (s : List Char) : List Char :=
  patCL ++ natToDigits (byteLen s) ++ lflf ++ s

/-- `Buffer.from(message, 'utf8')` (line 145): the encoded frame as the
bytes written to the socket. -/
def encodeBytes (s : List Char) : List Nat :=
  utf8Encode (frameCRLF s)

/-! ### ChangeGuard (`checkAndSendClipboardData` and the clipboard-write
callback, lines 119-151) -/

/-- The three per-connection variables: `lastClipboardContent` (last value
sent out), `lastClientContent` (last received value applied to the
clipboard), `skipNextCheck`. -/
structure GuardState where
  lastLocalSent : List Char
  lastRemoteApplied : List Char
  suppressNextPoll : Bool
  deriving DecidableEq

/-- Outcome of one poll tick. -/
inductive SampleResult where
  | emit (v : List Char)
  | suppress
  deriving DecidableEq

/-- `checkAndSendClipboardData` (lines 132-151), given the trimmed
clipboard value: skip once if `skipNextCheck`; otherwise send exactly
when the value is non-empty, differs from `lastClipboardContent` and
from `lastClientContent`, updating `lastClipboardContent` on send. -/
def onClipboardSample (st : GuardState) (value : List Char) :
    SampleResult × GuardState :=
  if st.suppressNextPoll then
    (.suppress, { st with suppressNextPoll := false })
  else if value ≠ [] ∧ value ≠ st.lastLocalSent ∧ value ≠ st.lastRemoteApplied then
    (.emit value, { st with lastLocalSent := value })
  else
    (.suppress, st)

/-- The guard update performed by the clipboard-write success callback
(lines 122-123): `lastClientContent = body; skipNextCheck = true`. -/
def onMessageReceived (st : GuardState) (value : List Char) : GuardState :=
  { st with lastRemoteApplied := value, suppressNextPoll := true }

/-- Result of the external clipboard-write operation. -/
inductive WriteOutcome where
  | success
  | failure
  deriving DecidableEq

/-- The read path's handling of one decoded body (lines 119-125):
`execPromise(...).then(update).catch(log)` — the guard state is updated
only in the success continuation; a failed write only logs. -/
def handleDecodedBody (st : GuardState) (body : List Char) :
    WriteOutcome → GuardState
  | .success => onMessageReceived st body
  | .failure => st

/-! ### Basic facts about the UTF-16 primitives -/

theorem utf16Size_pos (c : Char) : 1 ≤ utf16Size c := by
  unfold utf16Size; split <;> omega

theorem utf16Size_le_two (c : Char) : utf16Size c ≤ 2 := by
  unfold utf16Size; split <;> omega

theorem utf16Len_nil : utf16Len [] = 0 := rfl

theorem utf16Len_cons (c : Char) (l : List Char) :
    utf16Len (c :: l) = utf16Size c + utf16Len l := by
  simp [utf16Len]

theorem utf16Len_append (a b : List Char) :
    utf16Len (a ++ b) = utf16Len a + utf16Len b := by
  induction a with
  | nil => simp [utf16Len]
  | cons c a ih => simp [utf16Len_cons, ih]; omega

theorem utf16Take_append (a : List Char) (k : Nat) (r : List Char) :
    utf16Take (utf16Len a + k) (a ++ r) = a ++ utf16Take k r := by
  induction a with
  | nil => simp [utf16Len]
  | cons c a ih =>
    have h1 := utf16Size_pos c
    simp only [List.cons_append, utf16Take, utf16Len_cons]
    rw [if_pos (by omega)]
    have heq : utf16Size c + utf16Len a + k - utf16Size c = utf16Len a + k := by omega
    rw [heq]
    exact congrArg (List.cons c) ih

theorem utf16Drop_append (a : List Char) (k : Nat) (r : List Char) :
    utf16Drop (utf16Len a + k) (a ++ r) = utf16Drop k r := by
  induction a with
  | nil => simp [utf16Len]
  | cons c a ih =>
    have h1 := utf16Size_pos c
    simp only [List.cons_append, utf16Drop, utf16Len_cons]
    rw [if_pos (by omega)]
    have heq : utf16Size c + utf16Len a + k - utf16Size c = utf16Len a + k := by omega
    rw [heq]
    exact ih

theorem utf16Take_all (n : Nat) (l : List Char) (h : utf16Len l ≤ n) :
    utf16Take n l = l := by
  induction l generalizing n with
  | nil => rfl
  | cons c l ih =>
    rw [utf16Len_cons] at h
    simp only [utf16Take]
    rw [if_pos (by omega)]
    rw [ih _ (by omega)]

theorem utf16Drop_all (n : Nat) (l : List Char) (h : utf16Len l ≤ n) :
    utf16Drop n l = [] := by
  induction l generalizing n with
  | nil => rfl
  | cons c l ih =>
    rw [utf16Len_cons] at h
    simp only [utf16Drop]
    rw [if_pos (by omega)]
    exact ih _ (by omega)

theorem utf16Len_drop_le (n : Nat) (l : List Char) :
    utf16Len (utf16Drop n l) ≤ utf16Len l := by
  induction l generalizing n with
  | nil => simp [utf16Drop]
  | cons c l ih =>
    simp only [utf16Drop]
    split
    · exact (ih _).trans (by rw [utf16Len_cons]; omega)
    · exact Nat.le_refl _

theorem utf16Len_drop_lt (n : Nat) (l : List Char) (hl : l ≠ [])
    (hn : 2 ≤ n) : utf16Len (utf16Drop n l) < utf16Len l := by
  match l with
  | c :: rest =>
    have h1 := utf16Size_pos c
    have h2 := utf16Size_le_two c
    simp only [utf16Drop]
    rw [if_pos (by omega), utf16Len_cons]
    exact Nat.lt_of_le_of_lt (utf16Len_drop_le _ _) (by omega)

/-! ### Fuel adequacy for the extraction loop -/

theorem stepExtract_message_shrinks (buffer body rest : List Char)
    (hb : buffer ≠ [])
    (h : stepExtract buffer = .message body rest) :
    utf16Len rest < utf16Len buffer := by
  unfold stepExtract at h
  cases hfd : findDelimiter buffer with
  | none => rw [hfd] at h; exact absurd h (by simp)
  | some hd =>
    obtain ⟨he, dl⟩ := hd
    rw [hfd] at h
    simp only at h
    cases hm : matchContentLength (utf16Take he buffer) with
    | none => rw [hm] at h; exact absurd h (by simp)
    | some n =>
      rw [hm] at h
      simp only at h
      split at h
      · exact absurd h (by simp)
      · have hdl : 2 ≤ dl := by
          unfold findDelimiter at hfd
          cases h4 : jsIndexOf crlf2 buffer with
          | some i => rw [h4] at hfd; simp at hfd; omega
          | none =>
            rw [h4] at hfd
            cases h2 : jsIndexOf lflf buffer with
            | some i => rw [h2] at hfd; simp at hfd; omega
            | none => rw [h2] at hfd; simp at hfd
        have hrest : rest = utf16Drop n (utf16Drop (he + dl) buffer) := by
          injection h with h1 h2; exact h2.symm
        subst hrest
        calc utf16Len (utf16Drop n (utf16Drop (he + dl) buffer))
            ≤ utf16Len (utf16Drop (he + dl) buffer) := utf16Len_drop_le _ _
          _ < utf16Len buffer := utf16Len_drop_lt _ _ hb (by omega)

theorem processLoopFuel_succ (fuel : Nat) (buffer : List Char) :
    processLoopFuel (fuel + 1) buffer =
      if buffer = [] then some ([], [])
      else
        match stepExtract buffer with
        | .noDelim => some ([], buffer)
        | .malformed => some ([], [])
        | .needMore => some ([], buffer)
        | .message body rest =>
          match processLoopFuel fuel rest with
          | some (ms, b) => some (body :: ms, b)
          | none => none := rfl

theorem processLoopFuel_mono (fuel fuel' : Nat) (buffer : List Char)
    (r : List (List Char) × List Char)
    (h : processLoopFuel fuel buffer = some r) (hle : fuel ≤ fuel') :
    processLoopFuel fuel' buffer = some r := by
  induction fuel generalizing fuel' buffer r with
  | zero => exact absurd h (by simp [processLoopFuel])
  | succ fuel ih =>
    match fuel', hle with
    | fuel' + 1, hle =>
      rw [processLoopFuel_succ] at h ⊢
      by_cases hb : buffer = []
      · rw [if_pos hb] at h ⊢; exact h
      · rw [if_neg hb] at h ⊢
        cases hs : stepExtract buffer with
        | noDelim => simp only [hs] at h ⊢; exact h
        | malformed => simp only [hs] at h ⊢; exact h
        | needMore => simp only [hs] at h ⊢; exact h
        | message body rest =>
          simp only [hs] at h ⊢
          cases hr : processLoopFuel fuel rest with
          | none => simp [hr] at h
          | some r2 =>
            simp only [hr] at h
            simp only [ih fuel' rest r2 hr (by omega)]
            exact h

theorem processLoopFuel_enough (fuel : Nat) (buffer : List Char)
    (h : utf16Len buffer < fuel) :
    ∃ r, processLoopFuel fuel buffer = some r := by
  induction fuel generalizing buffer with
  | zero => omega
  | succ fuel ih =>
    rw [processLoopFuel_succ]
    by_cases hb : buffer = []
    · rw [if_pos hb]; exact ⟨_, rfl⟩
    · rw [if_neg hb]
      cases hs : stepExtract buffer with
      | noDelim => exact ⟨_, rfl⟩
      | malformed => exact ⟨_, rfl⟩
      | needMore => exact ⟨_, rfl⟩
      | message body rest =>
        have hlt := stepExtract_message_shrinks buffer body rest hb hs
        obtain ⟨r2, hr2⟩ := ih rest (by omega)
        exact ⟨(body :: r2.1, r2.2), by simp [hr2]⟩

theorem processLoop_eq_of_fuel (fuel : Nat) (buffer : List Char)
    (r : List (List Char) × List Char)
    (h : processLoopFuel fuel buffer = some r) :
    processLoop buffer = r := by
  obtain ⟨r2, hr2⟩ := processLoopFuel_enough (utf16Len buffer + 1) buffer (by omega)
  have := processLoopFuel_mono _ (fuel + (utf16Len buffer + 1)) _ _ h (by omega)
  have := processLoopFuel_mono _ (fuel + (utf16Len buffer + 1)) _ _ hr2 (by omega)
  unfold processLoop
  rw [hr2]
  simp_all

/-! ### Characterizations of the loop in terms of one extraction step -/

theorem processLoop_nil : processLoop [] = ([], []) := rfl

theorem processLoop_noDelim (buffer : List Char)
    (h : stepExtract buffer = .noDelim) :
    processLoop buffer = ([], buffer) := by
  by_cases hb : buffer = []
  · subst hb; rfl
  · exact processLoop_eq_of_fuel 1 _ _ (by simp [processLoopFuel, hb, h])

theorem processLoop_needMore (buffer : List Char)
    (h : stepExtract buffer = .needMore) :
    processLoop buffer = ([], buffer) := by
  by_cases hb : buffer = []
  · subst hb; rfl
  · exact processLoop_eq_of_fuel 1 _ _ (by simp [processLoopFuel, hb, h])

theorem processLoop_malformed (buffer : List Char)
    (h : stepExtract buffer = .malformed) :
    processLoop buffer = ([], []) := by
  by_cases hb : buffer = []
  · subst hb; rfl
  · exact processLoop_eq_of_fuel 1 _ _ (by simp [processLoopFuel, hb, h])

theorem processLoop_message (buffer body rest : List Char)
    (hb : buffer ≠ [])
    (h : stepExtract buffer = .message body rest) :
    processLoop buffer = (body :: (processLoop rest).1, (processLoop rest).2) := by
  obtain ⟨r2, hr2⟩ := processLoopFuel_enough (utf16Len rest + 1) rest (by omega)
  have hrest : processLoop rest = r2 := processLoop_eq_of_fuel _ _ _ hr2
  refine processLoop_eq_of_fuel (utf16Len rest + 1 + 1) _ _ ?_
  rw [processLoopFuel_succ, if_neg hb]
  simp [h, hr2, hrest]

/-! ### UTF-8 facts -/

theorem utf8Encode_append (a b : List Char) :
    utf8Encode (a ++ b) = utf8Encode a ++ utf8Encode b := by
  induction a with
  | nil => rfl
  | cons c a ih => simp [utf8Encode, ih]

theorem encodeChar_length (c : Char) :
    (encodeChar c).length =
      if c.toNat < 128 then 1
      else if c.toNat < 2048 then 2
      else if c.toNat < 65536 then 3
      else 4 := by
  simp only [encodeChar]
  split
  · simp
  · split
    · simp
    · split <;> simp

theorem encodeChar_length_pos (c : Char) : 1 ≤ (encodeChar c).length := by
  rw [encodeChar_length]
  split_ifs <;> omega

theorem utf16Size_le_encodeChar_length (c : Char) :
    utf16Size c ≤ (encodeChar c).length := by
  rw [encodeChar_length]
  unfold utf16Size
  split_ifs <;> omega

theorem byteLen_nil : byteLen [] = 0 := rfl

theorem byteLen_append (a b : List Char) :
    byteLen (a ++ b) = byteLen a + byteLen b := by
  unfold byteLen
  rw [utf8Encode_append, List.length_append]

theorem byteLen_cons (c : Char) (l : List Char) :
    byteLen (c :: l) = (encodeChar c).length + byteLen l := by
  have h : byteLen (c :: l) = (encodeChar c ++ utf8Encode l).length := rfl
  rw [h, List.length_append]
  rfl

theorem utf16Len_le_byteLen (l : List Char) : utf16Len l ≤ byteLen l := by
  induction l with
  | nil => simp [utf16Len, byteLen_nil]
  | cons c l ih =>
    rw [utf16Len_cons, byteLen_cons]
    exact Nat.add_le_add (utf16Size_le_encodeChar_length c) ih

theorem byteLen_pos (c : Char) (l : List Char) : 1 ≤ byteLen (c :: l) := by
  rw [byteLen_cons]
  have := encodeChar_length_pos c
  omega

theorem utf8DecodeLossy_ascii (b0 : Nat) (rest : List Nat) (h : b0 < 128) :
    utf8DecodeLossy (b0 :: rest) = Char.ofNat b0 :: utf8DecodeLossy rest := by
  rcases rest with _ | ⟨b1, _ | ⟨b2, _ | ⟨b3, rest⟩⟩⟩ <;> simp [utf8DecodeLossy, h]

theorem utf8DecodeLossy_two (b0 b1 : Nat) (rest : List Nat)
    (h0 : 194 ≤ b0 ∧ b0 ≤ 223) (h1 : 128 ≤ b1 ∧ b1 ≤ 191) :
    utf8DecodeLossy (b0 :: b1 :: rest) =
      Char.ofNat ((b0 - 192) * 64 + (b1 - 128)) :: utf8DecodeLossy rest := by
  have hn : ¬ b0 < 128 := by omega
  rcases rest with _ | ⟨b2, _ | ⟨b3, rest⟩⟩ <;>
    simp [utf8DecodeLossy, hn, h0.1, h0.2, h1.1, h1.2]

theorem utf8DecodeLossy_three (b0 b1 b2 : Nat) (rest : List Nat)
    (h0 : 224 ≤ b0 ∧ b0 ≤ 239) (h1 : cont3Ok b0 b1 = true)
    (h2 : 128 ≤ b2 ∧ b2 ≤ 191) :
    utf8DecodeLossy (b0 :: b1 :: b2 :: rest) =
      Char.ofNat ((b0 - 224) * 4096 + (b1 - 128) * 64 + (b2 - 128)) ::
        utf8DecodeLossy rest := by
  have hn : ¬ b0 < 128 := by omega
  have hn2 : ¬ (194 ≤ b0 ∧ b0 ≤ 223) := by omega
  rcases rest with _ | ⟨b3, rest⟩ <;>
    simp [utf8DecodeLossy, hn, hn2, h0.1, h0.2, h1, h2.1, h2.2]

theorem utf8DecodeLossy_four (b0 b1 b2 b3 : Nat) (rest : List Nat)
    (h0 : 240 ≤ b0 ∧ b0 ≤ 244) (h1 : cont4Ok b0 b1 = true)
    (h2 : 128 ≤ b2 ∧ b2 ≤ 191) (h3 : 128 ≤ b3 ∧ b3 ≤ 191) :
    utf8DecodeLossy (b0 :: b1 :: b2 :: b3 :: rest) =
      Char.ofNat ((b0 - 240) * 262144 + (b1 - 128) * 4096 +
        (b2 - 128) * 64 + (b3 - 128)) :: utf8DecodeLossy rest := by
  have hn : ¬ b0 < 128 := by omega
  have hn2 : ¬ (194 ≤ b0 ∧ b0 ≤ 223) := by omega
  have hn3 : ¬ (224 ≤ b0 ∧ b0 ≤ 239) := by omega
  simp [utf8DecodeLossy, hn, hn2, hn3, h0.1, h0.2, h1, h2.1, h2.2, h3.1, h3.2]

/-- Decoding a valid UTF-8 encoding of one scalar value consumes exactly
its bytes and yields exactly that character. -/
theorem decode_encodeChar (c : Char) (rest : List Nat) :
    utf8DecodeLossy (encodeChar c ++ rest) = c :: utf8DecodeLossy rest := by
  have hv : c.toNat < 55296 ∨ (57343 < c.toNat ∧ c.toNat < 1114112) := c.valid
  have hofn : Char.ofNat c.toNat = c := Char.ofNat_toNat c
  by_cases h1 : c.toNat < 128
  · have henc : encodeChar c = [c.toNat] := by
      simp only [encodeChar]; rw [if_pos h1]
    rw [henc, List.cons_append, List.nil_append,
      utf8DecodeLossy_ascii _ _ h1, hofn]
  · by_cases h2 : c.toNat < 2048
    · have henc : encodeChar c = [192 + c.toNat / 64, 128 + c.toNat % 64] := by
        simp only [encodeChar]; rw [if_neg h1, if_pos h2]
      rw [henc]
      simp only [List.cons_append, List.nil_append]
      rw [utf8DecodeLossy_two _ _ _ (by constructor <;> omega)
        (by constructor <;> omega)]
      have hval : (192 + c.toNat / 64 - 192) * 64 + (128 + c.toNat % 64 - 128)
          = c.toNat := by omega
      rw [hval, hofn]
    · by_cases h3 : c.toNat < 65536
      · have henc : encodeChar c =
            [224 + c.toNat / 4096, 128 + c.toNat / 64 % 64, 128 + c.toNat % 64] := by
          simp only [encodeChar]; rw [if_neg h1, if_neg h2, if_pos h3]
        have hdd : c.toNat / 64 / 64 = c.toNat / 4096 := by
          rw [Nat.div_div_eq_div_mul]
        have hcont : cont3Ok (224 + c.toNat / 4096) (128 + c.toNat / 64 % 64)
            = true := by
          unfold cont3Ok
          split
          · rename_i he
            have h0 : c.toNat / 4096 = 0 := by omega
            rw [h0] at hdd
            simp only [Bool.and_eq_true, decide_eq_true_eq]
            constructor <;> omega
          · split
            · rename_i he hd
              have h13 : c.toNat / 4096 = 13 := by omega
              rw [h13] at hdd
              simp only [Bool.and_eq_true, decide_eq_true_eq]
              constructor <;> omega
            · simp only [Bool.and_eq_true, decide_eq_true_eq]
              constructor <;> omega
        rw [henc]
        simp only [List.cons_append, List.nil_append]
        rw [utf8DecodeLossy_three _ _ _ _ (by constructor <;> omega) hcont
          (by constructor <;> omega)]
        have hval : (224 + c.toNat / 4096 - 224) * 4096 +
            (128 + c.toNat / 64 % 64 - 128) * 64 + (128 + c.toNat % 64 - 128)
            = c.toNat := by
          rw [← hdd]; omega
        rw [hval, hofn]
      · have henc : encodeChar c =
            [240 + c.toNat / 262144, 128 + c.toNat / 4096 % 64,
              128 + c.toNat / 64 % 64, 128 + c.toNat % 64] := by
          simp only [encodeChar]; rw [if_neg h1, if_neg h2, if_neg h3]
        have hdd : c.toNat / 64 / 64 = c.toNat / 4096 := by
          rw [Nat.div_div_eq_div_mul]
        have hdd2 : c.toNat / 4096 / 64 = c.toNat / 262144 := by
          rw [Nat.div_div_eq_div_mul]
        have hcont : cont4Ok (240 + c.toNat / 262144) (128 + c.toNat / 4096 % 64)
            = true := by
          unfold cont4Ok
          split
          · rename_i he
            have h0 : c.toNat / 262144 = 0 := by omega
            rw [h0] at hdd2
            simp only [Bool.and_eq_true, decide_eq_true_eq]
            constructor <;> omega
          · split
            · rename_i he hd
              have h4 : c.toNat / 262144 = 4 := by omega
              rw [h4] at hdd2
              simp only [Bool.and_eq_true, decide_eq_true_eq]
              constructor <;> omega
            · simp only [Bool.and_eq_true, decide_eq_true_eq]
              constructor <;> omega
        rw [henc]
        simp only [List.cons_append, List.nil_append]
        rw [utf8DecodeLossy_four _ _ _ _ _ (by constructor <;> omega) hcont
          (by constructor <;> omega) (by constructor <;> omega)]
        have hval : (240 + c.toNat / 262144 - 240) * 262144 +
            (128 + c.toNat / 4096 % 64 - 128) * 4096 +
            (128 + c.toNat / 64 % 64 - 128) * 64 + (128 + c.toNat % 64 - 128)
            = c.toNat := by
          rw [← hdd2, ← hdd]; omega
        rw [hval, hofn]

/-- Node's lossy decoding inverts UTF-8 encoding on every valid string. -/
theorem decode_utf8Encode (l : List Char) :
    utf8DecodeLossy (utf8Encode l) = l := by
  induction l with
  | nil => rfl
  | cons c l ih =>
    show utf8DecodeLossy (encodeChar c ++ utf8Encode l) = c :: l
    rw [decode_encodeChar, ih]

/-! ### Decimal digit facts -/

theorem patCL_spelling : patCL = "Content-Length: ".data := by decide

theorem decDigit_toNat (m : Nat) (h : m < 10) : (decDigit m).toNat = 48 + m := by
  interval_cases m <;> decide

theorem decDigit_isDigit (m : Nat) (h : m < 10) : isDigitC (decDigit m) = true := by
  interval_cases m <;> decide

theorem digitsToNat_append_digit (xs : List Char) (c : Char) :
    digitsToNat (xs ++ [c]) = digitsToNat xs * 10 + (c.toNat - 48) := by
  unfold digitsToNat
  rw [List.foldl_append]
  rfl

theorem natToDigitsAux_spec (fuel n : Nat) (h : n < fuel) :
    natToDigitsAux fuel n ≠ [] ∧
    (∀ c ∈ natToDigitsAux fuel n, isDigitC c = true) ∧
    digitsToNat (natToDigitsAux fuel n) = n := by
  induction fuel generalizing n with
  | zero => omega
  | succ fuel ih =>
    by_cases h10 : n < 10
    · have heq : natToDigitsAux (fuel + 1) n = [decDigit n] := by
        simp only [natToDigitsAux]; rw [if_pos h10]
      refine ⟨by simp [heq], ?_, ?_⟩
      · intro c hc
        rw [heq] at hc
        simp at hc
        subst hc
        exact decDigit_isDigit n h10
      · rw [heq]
        have hstep : digitsToNat [decDigit n] = 0 * 10 + ((decDigit n).toNat - 48) := rfl
        rw [hstep, decDigit_toNat n h10]
        omega
    · have hdiv : n / 10 < fuel := by
        have h1 : n / 10 < n := Nat.div_lt_self (by omega) (by omega)
        omega
      have heq : natToDigitsAux (fuel + 1) n =
          natToDigitsAux fuel (n / 10) ++ [decDigit (n % 10)] := by
        simp only [natToDigitsAux]; rw [if_neg h10]
      obtain ⟨hne, hdig, hval⟩ := ih (n / 10) hdiv
      refine ⟨by simp [heq], ?_, ?_⟩
      · intro c hc
        rw [heq] at hc
        rcases List.mem_append.1 hc with hc | hc
        · exact hdig c hc
        · simp at hc
          subst hc
          exact decDigit_isDigit _ (Nat.mod_lt _ (by omega))
      · rw [heq, digitsToNat_append_digit, hval,
          decDigit_toNat _ (Nat.mod_lt _ (by omega))]
        omega

theorem natToDigits_ne_nil (n : Nat) : natToDigits n ≠ [] :=
  (natToDigitsAux_spec (n + 1) n (by omega)).1

theorem natToDigits_all_digits (n : Nat) :
    ∀ c ∈ natToDigits n, isDigitC c = true :=
  (natToDigitsAux_spec (n + 1) n (by omega)).2.1

theorem digitsToNat_natToDigits (n : Nat) :
    digitsToNat (natToDigits n) = n :=
  (natToDigitsAux_spec (n + 1) n (by omega)).2.2

/-- Every character of the header `"Content-Length: " ++ digits` is
neither CR nor LF. -/
theorem header_chars (n : Nat) :
    ∀ c ∈ patCL ++ natToDigits n, c ≠ '\r' ∧ c ≠ '\n' := by
  intro c hc
  rcases List.mem_append.1 hc with hm | hm
  · have hp : ∀ c ∈ patCL, c ≠ '\r' ∧ c ≠ '\n' := by decide
    exact hp c hm
  · have hd := natToDigits_all_digits n c hm
    constructor <;> (intro he; subst he; exact absurd hd (by decide))

/-! ### Header regex facts -/

theorem ciPrefixAt_self_append (p r : List Char) :
    ciPrefixAt p (p ++ r) = true := by
  induction p with
  | nil => rfl
  | cons c p ih => simp [ciPrefixAt, ih]

theorem takeWhile_eq_self_of_all (p : Char → Bool) (l : List Char)
    (h : ∀ c ∈ l, p c = true) : l.takeWhile p = l := by
  induction l with
  | nil => rfl
  | cons c l ih =>
    rw [List.takeWhile_cons, h c (by simp)]
    simp only [if_true]
    rw [ih (fun d hd => h d (by simp [hd]))]

theorem matchCLAt_header (n : Nat) (tail : List Char)
    (htail : (natToDigits n ++ tail).takeWhile isDigitC = natToDigits n) :
    matchCLAt (patCL ++ (natToDigits n ++ tail)) = some n := by
  unfold matchCLAt
  rw [ciPrefixAt_self_append, if_pos rfl]
  have hdl : patCL.length = 16 := by decide
  have hdrop : (patCL ++ (natToDigits n ++ tail)).drop patCL.length
      = natToDigits n ++ tail := List.drop_left patCL _
  rw [hdrop, htail, if_neg (natToDigits_ne_nil n), digitsToNat_natToDigits]

theorem matchContentLength_cons (c : Char) (rest : List Char) :
    matchContentLength (c :: rest) =
      match matchCLAt (c :: rest) with
      | some n => some n
      | none => matchContentLength rest := rfl

theorem matchContentLength_of_matchCLAt (l : List Char) (n : Nat)
    (h : matchCLAt l = some n) : matchContentLength l = some n := by
  cases l with
  | nil => exact absurd h (by simp [matchCLAt, ciPrefixAt, patCL])
  | cons c rest =>
    rw [matchContentLength_cons]
    simp [h]

/-- The regex on the exact header produced by the encoder parses back the
declared length. -/
theorem matchContentLength_header (n : Nat) :
    matchContentLength (patCL ++ natToDigits n) = some n := by
  have h : matchCLAt (patCL ++ (natToDigits n ++ [])) = some n := by
    refine matchCLAt_header n [] ?_
    rw [List.append_nil]
    exact takeWhile_eq_self_of_all _ _ (natToDigits_all_digits n)
  rw [List.append_nil] at h
  exact matchContentLength_of_matchCLAt _ _ h

/-! ### indexOf facts -/

theorem listStartsWith_self_append (p r : List Char) :
    listStartsWith p (p ++ r) = true := by
  induction p with
  | nil => rfl
  | cons c p ih => simp [listStartsWith, ih]

theorem listStartsWith_head_ne (d : Char) (ps : List Char) (c : Char)
    (l : List Char) (h : c ≠ d) :
    listStartsWith (d :: ps) (c :: l) = false := by
  have hb : (d == c) = false := beq_eq_false_iff_ne.mpr (fun he => h he.symm)
  simp [listStartsWith, hb]

theorem jsIndexOf_of_startsWith (pat l : List Char)
    (h : listStartsWith pat l = true) : jsIndexOf pat l = some 0 := by
  cases l with
  | nil => simp [jsIndexOf, h]
  | cons c rest => simp [jsIndexOf, h]

theorem jsIndexOf_self_append (pat r : List Char) :
    jsIndexOf pat (pat ++ r) = some 0 :=
  jsIndexOf_of_startsWith pat _ (listStartsWith_self_append pat r)

/-- If the pattern's first character occurs nowhere in `a`, searching
`a ++ tail` is searching `tail`, shifted by the UTF-16 length of `a`. -/
theorem jsIndexOf_append_head_notin (d : Char) (ps : List Char)
    (a tail : List Char) (h : ∀ c ∈ a, c ≠ d) :
    jsIndexOf (d :: ps) (a ++ tail) =
      (jsIndexOf (d :: ps) tail).map (· + utf16Len a) := by
  induction a with
  | nil =>
    rw [List.nil_append]
    cases jsIndexOf (d :: ps) tail <;> simp [utf16Len]
  | cons c a ih =>
    have hc : c ≠ d := h c (by simp)
    rw [List.cons_append]
    have hsw := listStartsWith_head_ne d ps c (a ++ tail) hc
    simp only [jsIndexOf, hsw]
    rw [ih (fun x hx => h x (by simp [hx]))]
    cases jsIndexOf (d :: ps) tail with
    | none => simp
    | some i => simp [utf16Len_cons]; omega

theorem jsIndexOf_crlf2_append (a tail : List Char) (h : ∀ c ∈ a, c ≠ '\r') :
    jsIndexOf crlf2 (a ++ tail) = (jsIndexOf crlf2 tail).map (· + utf16Len a) :=
  jsIndexOf_append_head_notin '\r' ['\n', '\r', '\n'] a tail h

theorem jsIndexOf_lflf_append (a tail : List Char) (h : ∀ c ∈ a, c ≠ '\n') :
    jsIndexOf lflf (a ++ tail) = (jsIndexOf lflf tail).map (· + utf16Len a) :=
  jsIndexOf_append_head_notin '\n' ['\n'] a tail h

/-! ### Extraction on encoder-produced frames -/

theorem utf16Take_zero (l : List Char) : utf16Take 0 l = [] := by
  cases l with
  | nil => rfl
  | cons c rest =>
    have := utf16Size_pos c
    simp only [utf16Take]
    rw [if_neg (by omega)]

theorem utf16Drop_zero (l : List Char) : utf16Drop 0 l = l := by
  cases l with
  | nil => rfl
  | cons c rest =>
    have := utf16Size_pos c
    simp only [utf16Drop]
    rw [if_neg (by omega)]

theorem utf16Take_len_append (a r : List Char) :
    utf16Take (utf16Len a) (a ++ r) = a := by
  have h := utf16Take_append a 0 r
  rw [utf16Take_zero, List.append_nil, Nat.add_zero] at h
  exact h

theorem utf16Drop_len_append (a r : List Char) :
    utf16Drop (utf16Len a) (a ++ r) = r := by
  have h := utf16Drop_append a 0 r
  rw [utf16Drop_zero, Nat.add_zero] at h
  exact h

theorem frameCRLF_shape (s tail : List Char) :
    frameCRLF s ++ tail =
      (patCL ++ natToDigits (byteLen s)) ++ (crlf2 ++ (s ++ tail)) := by
  simp [frameCRLF, List.append_assoc]

theorem findDelimiter_crlf_frame (hd x : List Char)
    (hh : ∀ c ∈ hd, c ≠ '\r' ∧ c ≠ '\n') :
    findDelimiter (hd ++ (crlf2 ++ x)) = some (utf16Len hd, 4) := by
  unfold findDelimiter
  rw [jsIndexOf_crlf2_append _ _ (fun c hc => (hh c hc).1), jsIndexOf_self_append]
  simp

theorem stepExtract_frameCRLF (s tail : List Char) :
    stepExtract (frameCRLF s ++ tail) =
      .message (utf16Take (byteLen s) (s ++ tail))
               (utf16Drop (byteLen s) (s ++ tail)) := by
  rw [frameCRLF_shape]
  unfold stepExtract
  simp only [findDelimiter_crlf_frame _ _ (header_chars (byteLen s))]
  have htake : utf16Take (utf16Len (patCL ++ natToDigits (byteLen s)))
      ((patCL ++ natToDigits (byteLen s)) ++ (crlf2 ++ (s ++ tail)))
      = patCL ++ natToDigits (byteLen s) := utf16Take_len_append _ _
  have hlen4 : utf16Len crlf2 = 4 := by decide
  have hdrop : utf16Drop (utf16Len (patCL ++ natToDigits (byteLen s)) + 4)
      ((patCL ++ natToDigits (byteLen s)) ++ (crlf2 ++ (s ++ tail)))
      = s ++ tail := by
    rw [utf16Drop_append, ← hlen4, utf16Drop_len_append]
  simp only [htake, hdrop, matchContentLength_header]
  rw [if_neg (by rw [byteLen_append]; omega)]

theorem frameCRLF_ne_nil (s : List Char) : frameCRLF s ≠ [] := by
  simp [frameCRLF, patCL]

theorem frameLF_ne_nil (s : List Char) : frameLF s ≠ [] := by
  simp [frameLF, patCL]

/-- Extracting from exactly one CRLF-framed message yields its body and
an empty buffer. -/
theorem processLoop_frame (s : List Char) : processLoop (frameCRLF s) = ([s], []) := by
  have hs := stepExtract_frameCRLF s []
  rw [List.append_nil, List.append_nil,
    utf16Take_all _ _ (utf16Len_le_byteLen s),
    utf16Drop_all _ _ (utf16Len_le_byteLen s)] at hs
  rw [processLoop_message _ _ _ (frameCRLF_ne_nil s) hs, processLoop_nil]

theorem byteLen_ascii (a : List Char) (h : ∀ c ∈ a, c.toNat < 128) :
    byteLen a = utf16Len a := by
  induction a with
  | nil => rfl
  | cons c a ih =>
    have hc : c.toNat < 128 := h c (by simp)
    rw [byteLen_cons, utf16Len_cons, encodeChar_length,
      if_pos hc, ih (fun d hd => h d (by simp [hd]))]
    unfold utf16Size
    rw [if_pos (by omega)]

/-- Extracting from an ASCII-bodied frame followed by anything consumes
exactly the frame. -/
theorem processLoop_frame_ascii (a tail : List Char)
    (h : ∀ c ∈ a, c.toNat < 128) :
    processLoop (frameCRLF a ++ tail) =
      (a :: (processLoop tail).1, (processLoop tail).2) := by
  have hs := stepExtract_frameCRLF a tail
  have hlen : byteLen a = utf16Len a := byteLen_ascii a h
  rw [hlen, utf16Take_len_append, utf16Drop_len_append] at hs
  have hne : frameCRLF a ++ tail ≠ [] := by
    simp [frameCRLF, patCL]
  exact processLoop_message _ _ _ hne hs

theorem lflf_chars : ∀ c ∈ lflf, c ≠ '\r' := by decide

theorem findDelimiter_lf_frame (n : Nat) (s : List Char)
    (hs : jsIndexOf crlf2 s = none) :
    findDelimiter ((patCL ++ natToDigits n) ++ (lflf ++ s)) =
      some (utf16Len (patCL ++ natToDigits n), 2) := by
  unfold findDelimiter
  have h1 : jsIndexOf crlf2 ((patCL ++ natToDigits n) ++ (lflf ++ s)) = none := by
    rw [jsIndexOf_crlf2_append _ _ (fun c hc => (header_chars n c hc).1),
      jsIndexOf_crlf2_append lflf s lflf_chars, hs]
    rfl
  rw [h1, jsIndexOf_lflf_append _ _ (fun c hc => (header_chars n c hc).2),
    jsIndexOf_self_append]
  simp

theorem stepExtract_frameLF (s : List Char) (hs : jsIndexOf crlf2 s = none) :
    stepExtract (frameLF s) =
      .message (utf16Take (byteLen s) s) (utf16Drop (byteLen s) s) := by
  have hshape : frameLF s = (patCL ++ natToDigits (byteLen s)) ++ (lflf ++ s) := by
    simp [frameLF, List.append_assoc]
  rw [hshape]
  unfold stepExtract
  simp only [findDelimiter_lf_frame _ _ hs]
  have htake : utf16Take (utf16Len (patCL ++ natToDigits (byteLen s)))
      ((patCL ++ natToDigits (byteLen s)) ++ (lflf ++ s))
      = patCL ++ natToDigits (byteLen s) := utf16Take_len_append _ _
  have hlen2 : utf16Len lflf = 2 := by decide
  have hdrop : utf16Drop (utf16Len (patCL ++ natToDigits (byteLen s)) + 2)
      ((patCL ++ natToDigits (byteLen s)) ++ (lflf ++ s)) = s := by
    rw [utf16Drop_append, ← hlen2, utf16Drop_len_append]
  simp only [htake, hdrop, matchContentLength_header]
  rw [if_neg (by omega)]

/-- An LF-framed message whose body contains no `\r\n\r\n` decodes exactly
like the CRLF-framed one. -/
theorem processLoop_frameLF (s : List Char) (hs : jsIndexOf crlf2 s = none) :
    processLoop (frameLF s) = ([s], []) := by
  have hstep := stepExtract_frameLF s hs
  rw [utf16Take_all _ _ (utf16Len_le_byteLen s),
    utf16Drop_all _ _ (utf16Len_le_byteLen s)] at hstep
  rw [processLoop_message _ _ _ (frameLF_ne_nil s) hstep, processLoop_nil]

/-! ### Proper prefixes of a frame never extract anything -/

theorem jsIndexOf_none_of_head_notin (d : Char) (ps l : List Char)
    (h : ∀ c ∈ l, c ≠ d) : jsIndexOf (d :: ps) l = none := by
  induction l with
  | nil => simp [jsIndexOf, listStartsWith]
  | cons c rest ih =>
    have hc : c ≠ d := h c (by simp)
    simp [jsIndexOf, listStartsWith_head_ne d ps c rest hc,
      ih (fun x hx => h x (by simp [hx]))]

theorem jsIndexOf_crlf2_none (l : List Char) (h : ∀ c ∈ l, c ≠ '\r') :
    jsIndexOf crlf2 l = none :=
  jsIndexOf_none_of_head_notin '\r' ['\n', '\r', '\n'] l h

theorem jsIndexOf_lflf_none (l : List Char) (h : ∀ c ∈ l, c ≠ '\n') :
    jsIndexOf lflf l = none :=
  jsIndexOf_none_of_head_notin '\n' ['\n'] l h

theorem findDelimiter_none_of_safe (p : List Char)
    (h : ∀ c ∈ p, c ≠ '\r' ∧ c ≠ '\n') : findDelimiter p = none := by
  unfold findDelimiter
  rw [jsIndexOf_crlf2_none p (fun c hc => (h c hc).1),
    jsIndexOf_lflf_none p (fun c hc => (h c hc).2)]

theorem stepExtract_noDelim_of (buffer : List Char)
    (h : findDelimiter buffer = none) : stepExtract buffer = .noDelim := by
  unfold stepExtract
  rw [h]

theorem findDelimiter_partial_delim (n : Nat) (t : List Char)
    (h4 : jsIndexOf crlf2 t = none) (h2 : jsIndexOf lflf t = none) :
    findDelimiter ((patCL ++ natToDigits n) ++ t) = none := by
  unfold findDelimiter
  rw [jsIndexOf_crlf2_append _ _ (fun c hc => (header_chars n c hc).1), h4,
    jsIndexOf_lflf_append _ _ (fun c hc => (header_chars n c hc).2), h2]
  rfl

/-- A frame whose body bytes are not all there yet ends in `needMore`. -/
theorem stepExtract_frame_partial (n : Nat) (content : List Char)
    (hlt : byteLen content < n) :
    stepExtract ((patCL ++ natToDigits n) ++ (crlf2 ++ content)) = .needMore := by
  unfold stepExtract
  simp only [findDelimiter_crlf_frame _ _ (header_chars n)]
  have hlen4 : utf16Len crlf2 = 4 := by decide
  have hdrop : utf16Drop (utf16Len (patCL ++ natToDigits n) + 4)
      ((patCL ++ natToDigits n) ++ (crlf2 ++ content)) = content := by
    rw [utf16Drop_append, ← hlen4, utf16Drop_len_append]
  simp only [utf16Take_len_append, hdrop, matchContentLength_header]
  rw [if_pos hlt]

theorem prefix_of_crlf2_cases (y z : List Char) (h : y ++ z = crlf2) :
    y = [] ∨ y = ['\r'] ∨ y = ['\r', '\n'] ∨ y = ['\r', '\n', '\r'] ∨ y = crlf2 := by
  rcases y with _ | ⟨a, _ | ⟨b, _ | ⟨c, _ | ⟨d, _ | ⟨e, t⟩⟩⟩⟩⟩ <;>
    simp_all [crlf2]

/-- Feeding any proper prefix of an encoded frame to the loop yields no
message and leaves the buffer untouched. -/
theorem processLoop_incomplete_frame (s p q : List Char)
    (hpq : p ++ q = frameCRLF s) (hq : q ≠ []) :
    processLoop p = ([], p) := by
  have hfr : frameCRLF s = (patCL ++ natToDigits (byteLen s)) ++ (crlf2 ++ s) := by
    simp [frameCRLF, List.append_assoc]
  rw [hfr] at hpq
  rcases List.append_eq_append_iff.mp hpq with ⟨a', hH, hq'⟩ | ⟨c', hp, hcs⟩
  · have hchars : ∀ c ∈ p, c ≠ '\r' ∧ c ≠ '\n' := by
      intro c hc
      exact header_chars (byteLen s) c (by rw [hH]; exact List.mem_append_left _ hc)
    exact processLoop_noDelim p
      (stepExtract_noDelim_of p (findDelimiter_none_of_safe p hchars))
  · rcases List.append_eq_append_iff.mp hcs.symm with ⟨a', hc2, hq2⟩ | ⟨c'', hc2, hs2⟩
    · rcases prefix_of_crlf2_cases c' a' hc2.symm with h0 | h0 | h0 | h0 | h0
      · subst h0
        rw [List.append_nil] at hp
        subst hp
        exact processLoop_noDelim _ (stepExtract_noDelim_of _
          (findDelimiter_none_of_safe _ (header_chars (byteLen s))))
      · subst h0; subst hp
        exact processLoop_noDelim _ (stepExtract_noDelim_of _
          (findDelimiter_partial_delim _ _ (by decide) (by decide)))
      · subst h0; subst hp
        exact processLoop_noDelim _ (stepExtract_noDelim_of _
          (findDelimiter_partial_delim _ _ (by decide) (by decide)))
      · subst h0; subst hp
        exact processLoop_noDelim _ (stepExtract_noDelim_of _
          (findDelimiter_partial_delim _ _ (by decide) (by decide)))
      · subst h0
        have ha : a' = [] := by simpa using hc2
        subst ha
        rw [List.nil_append] at hq2
        have hsne : s ≠ [] := by rw [← hq2]; exact hq
        have hslt : byteLen ([] : List Char) < byteLen s := by
          cases s with
          | nil => exact absurd rfl hsne
          | cons c s' => exact byteLen_pos c s'
        have hstep := stepExtract_frame_partial (byteLen s) [] hslt
        rw [List.append_nil] at hstep
        subst hp
        exact processLoop_needMore _ hstep
    · subst hc2; subst hp
      have hlt : byteLen c'' < byteLen s := by
        rw [hs2, byteLen_append]
        cases q with
        | nil => exact absurd rfl hq
        | cons d q' => have := byteLen_pos d q'; omega
      have hstep := stepExtract_frame_partial (byteLen s) c'' hlt
      rw [← List.append_assoc] at hstep
      rw [← List.append_assoc]
      exact processLoop_needMore _ hstep

/-! ### Feeding chunks -/

theorem feedChunks_all_empty (ccs : List (List Char))
    (h : ∀ x ∈ ccs, x = ([] : List Char)) :
    feedChunks [] (ccs.map utf8Encode) = ([], []) := by
  induction ccs with
  | nil => rfl
  | cons c ccs ih =>
    have hc : c = [] := h c (by simp)
    subst hc
    simp only [List.map_cons, feedChunks]
    rw [show processData [] (utf8Encode []) = ([], []) from rfl]
    rw [ih (fun x hx => h x (by simp [hx]))]
    rfl

theorem feedChunks_frame_aux (s : List Char) (ccs : List (List Char)) :
    ∀ p : List Char, p ++ ccs.flatten = frameCRLF s → p ≠ frameCRLF s →
    feedChunks p (ccs.map utf8Encode) = ([s], []) := by
  induction ccs with
  | nil =>
    intro p hinv hne
    rw [List.flatten_nil, List.append_nil] at hinv
    exact absurd hinv hne
  | cons c ccs ih =>
    intro p hinv hne
    simp only [List.map_cons, feedChunks]
    have hpd : processData p (utf8Encode c) = processLoop (p ++ c) := by
      unfold processData
      rw [decode_utf8Encode]
    rw [List.flatten_cons, ← List.append_assoc] at hinv
    by_cases hfull : p ++ c = frameCRLF s
    · rw [hpd, hfull, processLoop_frame]
      have hrest : ccs.flatten = [] := by
        rw [hfull] at hinv
        have hl := congrArg List.length hinv
        rw [List.length_append] at hl
        exact List.eq_nil_of_length_eq_zero (by omega)
      rw [feedChunks_all_empty ccs (List.flatten_eq_nil_iff.mp hrest)]
      rfl
    · have hq : ccs.flatten ≠ [] := by
        intro h0
        rw [h0, List.append_nil] at hinv
        exact hfull hinv
      rw [hpd, processLoop_incomplete_frame s (p ++ c) ccs.flatten hinv hq]
      rw [ih (p ++ c) hinv hfull]
      rfl

/-! ### Claim theorems -/

/-- Claim C1: for every string `s` (empty, multi-byte, `\n`/`\r\n`
included), encoding it as `"Content-Length: " ++ decimal(byteLength s) ++
"\r\n\r\n" ++ s` and feeding the whole encoded buffer to the decoder
yields exactly the body `s` back, with nothing left in the buffer. -/
theorem claim1_roundtrip (s : List Char) :
    processData [] (encodeBytes s) = ([s], []) := by
  unfold processData encodeBytes
  rw [decode_utf8Encode, List.nil_append, processLoop_frame]

/-- Claim C2 counterexample: `encode("é") ++ encode("x")` fed as one
chunk does not decode to `Message("é")` then `Message("x")`: because the
code slices the body by UTF-16 code units while `Content-Length` counts
bytes, it produces the single wrong body `"éC"` and then discards the
mangled remainder as malformed. -/
theorem claim2_counterexample :
    processData [] (encodeBytes "é".data ++ encodeBytes "x".data)
        = (["éC".data], []) ∧
    processData [] (encodeBytes "é".data ++ encodeBytes "x".data) ≠
        (["é".data, "x".data], []) := by
  constructor
  · decide
  · decide

/-- Claim C2 as amended: when the first body `a` consists of single-byte
(ASCII) characters — so its byte length equals its UTF-16 length —
`encode(a) ++ encode(b)` fed as one chunk yields `Message(a)` then
`Message(b)`, in order, with no leftover bytes; exactly the first frame's
units are consumed and the rest is left for the next extraction. -/
theorem claim2_two_messages (a b : List Char) (ha : ∀ c ∈ a, c.toNat < 128) :
    processData [] (encodeBytes a ++ encodeBytes b) = ([a, b], []) := by
  unfold processData encodeBytes
  rw [← utf8Encode_append, decode_utf8Encode, List.nil_append,
    processLoop_frame_ascii a _ ha, processLoop_frame]

theorem claim2_witness :
    processData [] (encodeBytes "hi".data ++ encodeBytes "é".data)
      = (["hi".data, "é".data], []) :=
  claim2_two_messages "hi".data "é".data (by decide)

/-- Claim C3 counterexample: splitting `encode("é")` between the two
bytes of `é` and feeding the two chunks one at a time does not yield
`Message("é")`: each chunk is decoded to a string independently
(`data.toString('utf8')`), so the split multi-byte character becomes
U+FFFD and the decoder emits a corrupted body. -/
theorem claim3_counterexample :
    feedChunks []
        [(encodeBytes "é".data).take 22, (encodeBytes "é".data).drop 22] ≠
      (["é".data], []) := by
  decide

/-- Claim C3 as amended: for every string `s` and every splitting of
`encode(s)` into chunks at character boundaries (each chunk the UTF-8
encoding of a character sequence), feeding the chunks one at a time
yields exactly one `Message(s)` in total and an empty final buffer; in
particular no prefix that is not yet a complete frame produces any
message. -/
theorem claim3_incremental (s : List Char) (ccs : List (List Char))
    (h : ccs.flatten = frameCRLF s) :
    feedChunks [] (ccs.map utf8Encode) = ([s], []) := by
  refine feedChunks_frame_aux s ccs [] (by rw [List.nil_append, h]) ?_
  intro h0
  exact frameCRLF_ne_nil s h0.symm

theorem claim3_witness :
    feedChunks []
        ([ "Content-Len".data, "gth: 2\r\n\r\nh".data, "i".data ].map utf8Encode)
      = (["hi".data], []) :=
  claim3_incremental "hi".data _ (by decide)

/-- Claim C4 counterexample: for the body `"a\r\n\r\nb"`, the `\n\n`-framed
message does not decode like the `\r\n\r\n`-framed one: the decoder
attempts `\r\n\r\n` first and finds it inside the body, so the LF-framed
message never completes while the CRLF-framed one decodes normally. -/
theorem claim4_counterexample :
    processLoop (frameLF "a\r\n\r\nb".data) ≠
      processLoop (frameCRLF "a\r\n\r\nb".data) := by
  decide

/-- Claim C4 as amended: for every body `s` that does not contain
`\r\n\r\n`, the frame using the `\n\n` delimiter decodes to exactly the
same result as the frame using `\r\n\r\n` (namely `Message(s)` and an
empty buffer), the decoder attempting `\r\n\r\n` first and then `\n\n`. -/
theorem claim4_delimiter_fallback (s : List Char)
    (hs : jsIndexOf crlf2 s = none) :
    processLoop (frameLF s) = processLoop (frameCRLF s) := by
  rw [processLoop_frameLF s hs, processLoop_frame]

theorem claim4_witness :
    processLoop (frameLF "hi".data) = processLoop (frameCRLF "hi".data) :=
  claim4_delimiter_fallback "hi".data (by decide)

/-- Claim C5: one poll tick returns `Suppress` iff the skip flag is set
(cleared, unconditionally for that tick), or the value is empty, or it
equals `lastLocalSent`, or it equals `lastRemoteApplied`; otherwise it
returns `Emit(value)` and updates `lastLocalSent := value`; in the
suppress cases `lastLocalSent` and `lastRemoteApplied` are unchanged. -/
theorem claim5_sample_characterization (st : GuardState) (v : List Char) :
    ((onClipboardSample st v).1 = .suppress ↔
      st.suppressNextPoll = true ∨ v = [] ∨ v = st.lastLocalSent ∨
        v = st.lastRemoteApplied) ∧
    ((onClipboardSample st v).1 ≠ .suppress →
      (onClipboardSample st v).1 = .emit v ∧
      (onClipboardSample st v).2 = { st with lastLocalSent := v }) ∧
    (st.suppressNextPoll = true →
      (onClipboardSample st v).2 = { st with suppressNextPoll := false }) ∧
    ((onClipboardSample st v).1 = .suppress →
      (onClipboardSample st v).2.lastLocalSent = st.lastLocalSent ∧
      (onClipboardSample st v).2.lastRemoteApplied = st.lastRemoteApplied) := by
  unfold onClipboardSample
  split_ifs with hA hB
  · exact ⟨by simp [hA], fun h => absurd rfl h, fun _ => rfl, fun _ => ⟨rfl, rfl⟩⟩
  · refine ⟨?_, fun _ => ⟨rfl, rfl⟩, fun hf => absurd hf hA, ?_⟩
    · simp [hA, hB.1, hB.2.1, hB.2.2]
    · intro hs
      exact absurd hs (by simp)
  · have hd : v = [] ∨ v = st.lastLocalSent ∨ v = st.lastRemoteApplied := by
      by_cases h3 : v = []
      · exact Or.inl h3
      · by_cases h4 : v = st.lastLocalSent
        · exact Or.inr (Or.inl h4)
        · push_neg at hB
          exact Or.inr (Or.inr (hB h3 h4))
    refine ⟨?_, fun h => absurd rfl h, fun hf => absurd hf hA, fun _ => ⟨rfl, rfl⟩⟩
    constructor
    · intro _
      rcases hd with h | h | h
      · exact Or.inr (Or.inl h)
      · exact Or.inr (Or.inr (Or.inl h))
      · exact Or.inr (Or.inr (Or.inr h))
    · intro _
      rfl

theorem claim5_witness :
    (onClipboardSample ⟨['a'], ['b'], false⟩ ['c']).1 = .emit ['c'] :=
  ((claim5_sample_characterization ⟨['a'], ['b'], false⟩ ['c']).2.1
    (by decide)).1

/-- Claim C6: receiving a message sets `lastRemoteApplied` to the body
and arms the one-tick skip; consequently the immediately following poll
of the same value is suppressed (flag), the next poll of the unchanged
value is suppressed again (equals `lastRemoteApplied`), and a genuinely
new value (non-empty, differing from both remembered values) is emitted. -/
theorem claim6_loop_suppression (st : GuardState) (v w : List Char)
    (r1 r2 : SampleResult) (st1 st2 : GuardState)
    (h0 : onClipboardSample (onMessageReceived st v) v = (r1, st1))
    (h1 : onClipboardSample st1 v = (r2, st2)) :
    onMessageReceived st v =
      { st with lastRemoteApplied := v, suppressNextPoll := true } ∧
    r1 = .suppress ∧ r2 = .suppress ∧
    (w ≠ [] → w ≠ st2.lastLocalSent → w ≠ st2.lastRemoteApplied →
      (onClipboardSample st2 w).1 = .emit w) := by
  have e1 : onClipboardSample (onMessageReceived st v) v =
      (.suppress, { st with lastRemoteApplied := v, suppressNextPoll := false }) := by
    unfold onClipboardSample onMessageReceived
    simp
  rw [e1] at h0
  injection h0 with hr1 hst1
  have e2 : onClipboardSample
      { st with lastRemoteApplied := v, suppressNextPoll := false } v =
      (.suppress, { st with lastRemoteApplied := v, suppressNextPoll := false }) := by
    unfold onClipboardSample
    simp
  rw [← hst1, e2] at h1
  injection h1 with hr2 hst2
  refine ⟨rfl, hr1.symm, hr2.symm, ?_⟩
  intro hw1 hw2 hw3
  rw [← hst2] at hw2 hw3 ⊢
  have hw2' : w ≠ st.lastLocalSent := hw2
  have hw3' : w ≠ v := hw3
  have e3 : onClipboardSample
      { st with lastRemoteApplied := v, suppressNextPoll := false } w =
      (.emit w,
        { lastLocalSent := w, lastRemoteApplied := v, suppressNextPoll := false }) := by
    unfold onClipboardSample
    simp [hw1, hw2', hw3']
  rw [e3]

theorem claim6_witness :
    (onClipboardSample ⟨[], "hello".data, false⟩ "world".data).1
      = .emit "world".data :=
  (claim6_loop_suppression ⟨[], [], false⟩ "hello".data "world".data
    _ _ _ _ rfl rfl).2.2.2 (by decide) (by decide) (by decide)

/-- Claim C7 counterexample: the claim says the guard state is updated
before the clipboard write is attempted, so a failed write would still
update it; in the code the update lives in the write promise's success
continuation, so after a failed write the state is unchanged — here the
skip flag stays `false` instead of becoming `true`. -/
theorem claim7_counterexample :
    handleDecodedBody ⟨[], [], false⟩ ['x'] .failure ≠
      onMessageReceived ⟨[], [], false⟩ ['x'] := by
  decide

/-- Claim C7 as amended: the guard update for a decoded body runs in the
clipboard-write success continuation: on success `lastRemoteApplied` and
`suppressNextPoll` are updated exactly as `onMessageReceived` does; on
failure the error is only logged and the guard state is left unchanged. -/
theorem claim7_update_on_success_only (st : GuardState) (body : List Char) :
    handleDecodedBody st body .success = onMessageReceived st body ∧
    handleDecodedBody st body .failure = st :=
  ⟨rfl, rfl⟩

/-- Claim C8: when a delimiter is found but the header before it does not
match `Content-Length: <digits>`, the whole buffer is discarded and the
read event stops: no message is produced, even from a valid frame
concatenated after the malformed data. -/
theorem claim8_malformed_clears (buffer : List Char) (he dl : Nat)
    (hfd : findDelimiter buffer = some (he, dl))
    (hm : matchContentLength (utf16Take he buffer) = none) :
    processLoop buffer = ([], []) := by
  have hs : stepExtract buffer = .malformed := by
    unfold stepExtract
    simp only [hfd, hm]
  exact processLoop_malformed buffer hs

theorem claim8_witness :
    processLoop ("garbage\r\n\r\n".data ++ frameCRLF "hi".data) = ([], []) :=
  claim8_malformed_clears _ 7 4 (by decide) (by decide)

/-- Claim C9: whenever extraction is incomplete — no delimiter at all, or
fewer than `contentLength` bytes (in UTF-8 byte length) after the
delimiter — the loop returns with the buffer completely unmodified. -/
theorem claim9_incomplete_preserves (buffer : List Char) :
    (findDelimiter buffer = none → processLoop buffer = ([], buffer)) ∧
    (∀ he dl n, findDelimiter buffer = some (he, dl) →
      matchContentLength (utf16Take he buffer) = some n →
      byteLen (utf16Drop (he + dl) buffer) < n →
      processLoop buffer = ([], buffer)) := by
  constructor
  · intro h
    exact processLoop_noDelim buffer (stepExtract_noDelim_of buffer h)
  · intro he dl n hfd hm hlt
    have hs : stepExtract buffer = .needMore := by
      unfold stepExtract
      simp only [hfd, hm]
      rw [if_pos hlt]
    exact processLoop_needMore buffer hs

theorem claim9_witness :
    processLoop "Content-Length: 5\r\n\r\nab".data
      = ([], "Content-Length: 5\r\n\r\nab".data) :=
  (claim9_incomplete_preserves _).2 17 4 5 (by decide) (by decide) (by decide)

/-- Claim C10: the repeated-extraction loop terminates on every buffer:
fuel equal to the buffer's length plus one always suffices (each
successful extraction strictly shrinks the buffer, the other outcomes
return immediately), and the total loop result is the fuelled result. -/
theorem claim10_loop_terminates (buffer : List Char) :
    ∃ r, processLoopFuel (utf16Len buffer + 1) buffer = some r ∧
      processLoop buffer = r := by
  obtain ⟨r, hr⟩ := processLoopFuel_enough (utf16Len buffer + 1) buffer (by omega)
  exact ⟨r, hr, processLoop_eq_of_fuel _ _ _ hr⟩

end ClipboardSync
